import Mathlib

/-!
Verification of the Image-Filters repository (a6image.py, a6history.py and the
editor module) against its natural-language specification.

The Python classes are shallowly embedded as follows:
* a pixel is a triple of natural numbers (the RGB channels);
* `Image` mirrors `a6image.Image`: the pixel list plus the stored `_width`
  and `_height` attributes (`_length` is `pixels.length`, which every
  operation below preserves);
* `ImageHistory` mirrors `a6history.ImageHistory`;
* the editor's methods read and mutate `getCurrent()` and nothing else of the
  history, so they are embedded as functions on the current `Image`
  (`encode` returns the Python boolean result together with the image).
Python's in-place loops become folds over the same index lists in the same
order; machine integers are `Nat` (Python ints are unbounded, and all the
quantities here are non-negative).
-/

/-- An RGB pixel: a triple of channel values, as in the `pixels` collaborator. -/
abbrev Pixel := Nat × Nat × Nat

/-- Embedding of `a6image.Image`: the pixel list together with the stored
`_width` and `_height` attributes.  `_length` is `pixels.length`. -/
structure Image where
  pixels : List Pixel
  width : Nat
  height : Nat
deriving DecidableEq, Repr

/-- `Image.__init__(data, width)`: stores the data and width and derives
`_height = len(data) // width` (the asserted preconditions `width > 0` and
`len(data) % width == 0` appear as hypotheses of the theorems). -/
def Image.make (data : List Pixel) (width : Nat) : Image :=
  ⟨data, width, data.length / width⟩

/-- `Image.getLength`: the number of pixels. -/
def Image.getLength (img : Image) : Nat :=
  img.pixels.length

/-- `Image.setWidth(value)`: stores the new width and recomputes
`_height = _length // _width`. -/
def Image.setWidth (img : Image) (value : Nat) : Image :=
  { img with width := value, height := img.pixels.length / value }

/-- `Image.setHeight(value)`: stores the new height and recomputes
`_width = _length // _height`. -/
def Image.setHeight (img : Image) (value : Nat) : Image :=
  { img with height := value, width := img.pixels.length / value }

/-- `Image.getPixel(row, col)`: reads `_pixels[row*_width + col]`. -/
def Image.getPixel (img : Image) (row col : Nat) : Pixel :=
  img.pixels.getD (row * img.width + col) (0, 0, 0)

/-- `Image.setPixel(row, col, pixel)`: writes `_pixels[row*_width + col]`. -/
def Image.setPixel (img : Image) (row col : Nat) (p : Pixel) : Image :=
  { img with pixels := img.pixels.set (row * img.width + col) p }

/-- `Image.getFlatPixel(n)`: reads `_pixels[n]`. -/
def Image.getFlatPixel (img : Image) (n : Nat) : Pixel :=
  img.pixels.getD n (0, 0, 0)

/-- `Image.setFlatPixel(n, pixel)`: writes `_pixels[n]`. -/
def Image.setFlatPixel (img : Image) (n : Nat) (p : Pixel) : Image :=
  { img with pixels := img.pixels.set n p }

/-- `Image.swapPixels(row1, col1, row2, col2)`: reads both pixels, then writes
them swapped through `setPixel`. -/
def Image.swapPixels (img : Image) (row1 col1 row2 col2 : Nat) : Image :=
  let a := img.getPixel row2 col2
  let b := img.getPixel row1 col1
  (img.setPixel row1 col1 a).setPixel row2 col2 b

/-- `Image.copy()`: a new image from a copy of the pixel list and the same
width (value semantics make the copy literally the same value). -/
def Image.copy (img : Image) : Image :=
  Image.make img.pixels img.width

/-- The documented invariant of `a6image.Image`: `width * height == length`. -/
def Image.dimInvariant (img : Image) : Prop :=
  img.width * img.height = img.pixels.length

/-- Embedding of `a6history.ImageHistory`. -/
structure ImageHistory where
  original : Image
  history : List Image
deriving DecidableEq, Repr

/-- `ImageHistory.MAX_HISTORY = 20`. -/
def ImageHistory.maxHistory : Nat := 20

/-- `ImageHistory.__init__(original)`: the history starts as `[original.copy()]`. -/
def ImageHistory.make (original : Image) : ImageHistory :=
  ⟨original, [original.copy]⟩

/-- `ImageHistory.getCurrent()`: `_history[-1]` (the history is never empty). -/
def ImageHistory.getCurrent (h : ImageHistory) : Image :=
  h.history.getLastD (Image.make [] 1)

/-- `ImageHistory.increment()`: append `getCurrent().copy()`; if the length now
exceeds `MAX_HISTORY`, pop index 0. -/
def ImageHistory.increment (h : ImageHistory) : ImageHistory :=
  let h2 := h.history ++ [h.getCurrent.copy]
  if ImageHistory.maxHistory < h2.length then ⟨h.original, h2.drop 1⟩
  else ⟨h.original, h2⟩

/-- `ImageHistory.undo()`: if more than one entry remains, pop the last entry
and return `True`; otherwise return `False` without touching the history. -/
def ImageHistory.undo (h : ImageHistory) : Bool × ImageHistory :=
  if 1 < h.history.length then (true, ⟨h.original, h.history.dropLast⟩)
  else (false, h)

/-- `ImageHistory.clear()`: the history becomes `[original.copy()]` again. -/
def ImageHistory.clear (h : ImageHistory) : ImageHistory :=
  ⟨h.original, [h.original.copy]⟩

-- ### Basic list-access lemmas used throughout

theorem getD_set_self {α : Type} {l : List α} {n : Nat} {a d : α} (h : n < l.length) :
    (l.set n a).getD n d = a := by
  induction l generalizing n with
  | nil => simp at h
  | cons x xs ih =>
    cases n with
    | zero => simp [List.set, List.getD]
    | succ m =>
      simp only [List.set, List.getD] at *
      exact ih (by simpa using h)

theorem getD_set_ne {α : Type} {l : List α} {n m : Nat} {a d : α} (h : m ≠ n) :
    (l.set n a).getD m d = l.getD m d := by
  induction l generalizing n m with
  | nil => simp [List.set]
  | cons x xs ih =>
    cases n with
    | zero =>
      cases m with
      | zero => exact absurd rfl h
      | succ k => simp [List.set, List.getD]
    | succ j =>
      cases m with
      | zero => simp [List.set, List.getD]
      | succ k =>
        simp only [List.set, List.getD]
        exact ih (by omega)

theorem getD_eq_getElem {α : Type} {l : List α} {n : Nat} {d : α} (h : n < l.length) :
    l.getD n d = l[n] := by
  induction l generalizing n with
  | nil => simp at h
  | cons x xs ih =>
    cases n with
    | zero => simp [List.getD]
    | succ m =>
      simp only [List.getD]
      simpa using ih (by simpa using h)

-- ### C1: the dimension invariant across all mutating Image operations

/-- C1: `width * height == pixels.length` is (re-)established by every mutating
`Image` operation — construction with an evenly-dividing width, `setWidth`,
`setHeight`, `setPixel`, `setFlatPixel` and `swapPixels` — with the
complementary dimension recomputed by integer division and the pixel count
never changing. -/
theorem image_dimInvariant_all_ops :
    (∀ (data : List Pixel) (w : Nat), 0 < w → data.length % w = 0 →
      (Image.make data w).dimInvariant ∧ (Image.make data w).pixels.length = data.length) ∧
    (∀ (img : Image) (v : Nat), 0 < v → img.pixels.length % v = 0 →
      (img.setWidth v).dimInvariant ∧ (img.setWidth v).pixels.length = img.pixels.length ∧
      (img.setWidth v).height = img.pixels.length / v) ∧
    (∀ (img : Image) (v : Nat), 0 < v → img.pixels.length % v = 0 →
      (img.setHeight v).dimInvariant ∧ (img.setHeight v).pixels.length = img.pixels.length ∧
      (img.setHeight v).width = img.pixels.length / v) ∧
    (∀ (img : Image) (r c : Nat) (p : Pixel), img.dimInvariant →
      (img.setPixel r c p).dimInvariant ∧ (img.setPixel r c p).pixels.length = img.pixels.length) ∧
    (∀ (img : Image) (n : Nat) (p : Pixel), img.dimInvariant →
      (img.setFlatPixel n p).dimInvariant ∧ (img.setFlatPixel n p).pixels.length = img.pixels.length) ∧
    (∀ (img : Image) (r1 c1 r2 c2 : Nat), img.dimInvariant →
      (img.swapPixels r1 c1 r2 c2).dimInvariant ∧
      (img.swapPixels r1 c1 r2 c2).pixels.length = img.pixels.length) := by
  refine ⟨?_, ?_, ?_, ?_, ?_, ?_⟩
  · intro data w _ hmod
    exact ⟨Nat.mul_div_cancel' (Nat.dvd_of_mod_eq_zero hmod), rfl⟩
  · intro img v _ hmod
    exact ⟨Nat.mul_div_cancel' (Nat.dvd_of_mod_eq_zero hmod), rfl, rfl⟩
  · intro img v _ hmod
    exact ⟨Nat.div_mul_cancel (Nat.dvd_of_mod_eq_zero hmod), rfl, rfl⟩
  · intro img r c p hinv
    exact ⟨by simpa [Image.dimInvariant, Image.setPixel] using hinv, by simp [Image.setPixel]⟩
  · intro img n p hinv
    exact ⟨by simpa [Image.dimInvariant, Image.setFlatPixel] using hinv, by simp [Image.setFlatPixel]⟩
  · intro img r1 c1 r2 c2 hinv
    exact ⟨by simpa [Image.dimInvariant, Image.swapPixels, Image.setPixel] using hinv,
           by simp [Image.swapPixels, Image.setPixel]⟩

/-- Witness for C1 at concrete inputs (a 2x3 buffer). -/
theorem image_dimInvariant_all_ops_witness :
    (Image.make (List.replicate 6 ((0, 0, 0) : Pixel)) 2).dimInvariant ∧
    ((Image.make (List.replicate 6 ((0, 0, 0) : Pixel)) 2).setWidth 3).dimInvariant ∧
    ((Image.make (List.replicate 6 ((0, 0, 0) : Pixel)) 2).setHeight 6).dimInvariant ∧
    ((Image.make (List.replicate 6 ((0, 0, 0) : Pixel)) 2).setPixel 1 1 (9, 9, 9)).dimInvariant ∧
    ((Image.make (List.replicate 6 ((0, 0, 0) : Pixel)) 2).setFlatPixel 5 (9, 9, 9)).dimInvariant ∧
    ((Image.make (List.replicate 6 ((0, 0, 0) : Pixel)) 2).swapPixels 0 0 2 1).dimInvariant :=
  ⟨(image_dimInvariant_all_ops.1 _ 2 (by decide) (by decide)).1,
   (image_dimInvariant_all_ops.2.1 _ 3 (by decide) (by decide)).1,
   (image_dimInvariant_all_ops.2.2.1 _ 6 (by decide) (by decide)).1,
   (image_dimInvariant_all_ops.2.2.2.1 _ 1 1 (9, 9, 9) (by rfl)).1,
   (image_dimInvariant_all_ops.2.2.2.2.1 _ 5 (9, 9, 9) (by rfl)).1,
   (image_dimInvariant_all_ops.2.2.2.2.2 _ 0 0 2 1 (by rfl)).1⟩

-- ### C2: bounded history growth under increment

theorem increment_history_length (h : ImageHistory) (hle : h.history.length ≤ 20) :
    h.increment.history.length = min (h.history.length + 1) 20 := by
  unfold ImageHistory.increment ImageHistory.maxHistory
  by_cases hc : 20 < (h.history ++ [h.getCurrent.copy]).length
  · rw [if_pos hc]
    simp only [List.length_append, List.length_cons, List.length_nil, List.length_drop] at *
    omega
  · rw [if_neg hc]
    simp only [List.length_append, List.length_cons, List.length_nil] at *
    omega

theorem iterate_increment_history_length (h : ImageHistory) (hle : h.history.length ≤ 20) :
    ∀ k, ((ImageHistory.increment)^[k] h).history.length = min (h.history.length + k) 20 := by
  intro k
  induction k with
  | zero => simp; omega
  | succ n ih =>
    rw [Function.iterate_succ_apply', increment_history_length _ (by omega), ih]
    omega

/-- C2 (amended): from a freshly constructed history (timeline length 1),
after `k ≤ 19` calls to `increment` the timeline length is `1 + k`; after 25
calls it is 20; the length never exceeds `MAX_HISTORY = 20`.  (At `k = 20` the
length is already 20, not 21: appending the 21st entry evicts index 0.) -/
theorem snapshot_timeline_length (img : Image) :
    (∀ k, k ≤ 19 → ((ImageHistory.increment)^[k] (ImageHistory.make img)).history.length = 1 + k) ∧
    ((ImageHistory.increment)^[25] (ImageHistory.make img)).history.length = 20 ∧
    (∀ k, ((ImageHistory.increment)^[k] (ImageHistory.make img)).history.length ≤ 20) := by
  have hbase : (ImageHistory.make img).history.length = 1 := rfl
  refine ⟨?_, ?_, ?_⟩
  · intro k hk
    rw [iterate_increment_history_length _ (by omega) k, hbase]
    omega
  · rw [iterate_increment_history_length _ (by omega) 25, hbase]
    omega
  · intro k
    rw [iterate_increment_history_length _ (by omega) k]
    omega

/-- Witness for C2 at a concrete history and count. -/
theorem snapshot_timeline_length_witness :
    ((ImageHistory.increment)^[4]
      (ImageHistory.make (Image.make [(0, 0, 0)] 1))).history.length = 1 + 4 :=
  (snapshot_timeline_length (Image.make [(0, 0, 0)] 1)).1 4 (by decide)

/-- C2 counterexample: after exactly 20 increments the timeline length is 20,
not `1 + 20 = 21` — the claim's bound `k ≤ 20` overshoots by one. -/
theorem snapshot_timeline_length_counterexample :
    ((ImageHistory.increment)^[20]
      (ImageHistory.make (Image.make [(0, 0, 0)] 1))).history.length = 20 ∧
    ¬ ((ImageHistory.increment)^[20]
      (ImageHistory.make (Image.make [(0, 0, 0)] 1))).history.length = 1 + 20 := by
  have hb : (ImageHistory.make (Image.make [(0, 0, 0)] 1)).history.length = 1 := rfl
  have h := iterate_increment_history_length (ImageHistory.make (Image.make [(0, 0, 0)] 1))
      (by omega) 20
  rw [hb] at h
  constructor
  · rw [h]
    omega
  · rw [h]
    omega

-- ### C8: undo semantics

/-- C8: `undo` on a single-entry history returns failure and leaves the
timeline unchanged; with `N > 1` entries it removes exactly the last entry
(leaving the first `N - 1` in order) and returns success; the timeline is
never emptied. -/
theorem undo_spec (h : ImageHistory) :
    (h.history.length = 1 → h.undo = (false, h)) ∧
    (1 < h.history.length →
      h.undo.1 = true ∧ h.undo.2.history = h.history.dropLast ∧
      h.undo.2.history.length = h.history.length - 1) ∧
    (1 ≤ h.history.length → 1 ≤ h.undo.2.history.length) := by
  refine ⟨?_, ?_, ?_⟩
  · intro h1
    unfold ImageHistory.undo
    rw [if_neg (by omega)]
  · intro h1
    unfold ImageHistory.undo
    rw [if_pos h1]
    exact ⟨rfl, rfl, by simp [List.length_dropLast]⟩
  · intro h1
    unfold ImageHistory.undo
    by_cases hc : 1 < h.history.length
    · rw [if_pos hc]
      simp [List.length_dropLast]
      omega
    · rw [if_neg hc]
      exact h1

/-- Witness for C8 at concrete histories of lengths 1 and 2. -/
theorem undo_spec_witness :
    ((ImageHistory.mk (Image.make [(1, 2, 3)] 1)
        [Image.make [(1, 2, 3)] 1, Image.make [(4, 5, 6)] 1]).undo).1 = true ∧
    ((ImageHistory.mk (Image.make [(1, 2, 3)] 1)
        [Image.make [(1, 2, 3)] 1, Image.make [(4, 5, 6)] 1]).undo).2.history
      = [Image.make [(1, 2, 3)] 1] ∧
    ((ImageHistory.mk (Image.make [(1, 2, 3)] 1) [Image.make [(1, 2, 3)] 1]).undo)
      = (false, ImageHistory.mk (Image.make [(1, 2, 3)] 1) [Image.make [(1, 2, 3)] 1]) ∧
    1 ≤ ((ImageHistory.mk (Image.make [(1, 2, 3)] 1) [Image.make [(1, 2, 3)] 1]).undo).2.history.length :=
  ⟨((undo_spec _).2.1 (by decide)).1,
   (((undo_spec _).2.1 (by decide)).2.1).trans (by decide),
   (undo_spec _).1 (by decide),
   (undo_spec _).2.2 (by decide)⟩

-- ### The editor's steganography methods (part_000)
-- Each editor method works on `getCurrent()` and touches nothing else of the
-- history, so they are embedded as functions on that image.  Text is a list of
-- character codes (`ord` values).

/-- `Editor._decode_pixel(pos)`: `(red % 10)*100 + (green % 10)*10 + blue % 10`. -/
def Editor.decodePixel (img : Image) (pos : Nat) : Nat :=
  let rgb := img.getFlatPixel pos
  rgb.1 % 10 * 100 + rgb.2.1 % 10 * 10 + rgb.2.2 % 10

/-- `str(v)[0:2] + digit` as a number, for the channel values `v ≤ 999` that
arise in this system (channels start in `0..255` and one encoding step keeps
them below 1000): the whole of `str(v)` for `v < 100` (so the value gains a
digit), and the first two of its three digits otherwise. -/
def Editor.encodeDigitRaw (v d : Nat) : Nat :=
  if v < 100 then v * 10 + d else v / 10 * 10 + d

/-- One channel of `Editor._encode_pixel`: splice the digit in, then apply the
overflow correction (subtract 10 once if the result exceeds 255). -/
def Editor.encodeChannel (v d : Nat) : Nat :=
  if 255 < Editor.encodeDigitRaw v d then Editor.encodeDigitRaw v d - 10
  else Editor.encodeDigitRaw v d

/-- The new pixel value produced by `Editor._encode_pixel` for a letter with
code `a` (zero-padded to the 3 digits `a/100`, `a/10 % 10`, `a % 10`). -/
def Editor.encodePixelVal (a : Nat) (rgb : Pixel) : Pixel :=
  (Editor.encodeChannel rgb.1 (a / 100),
   Editor.encodeChannel rgb.2.1 (a / 10 % 10),
   Editor.encodeChannel rgb.2.2 (a % 10))

/-- `Editor._encode_pixel(letter, pos)`: rewrite the pixel at flat position
`pos` with the letter's digits spliced into the channels. -/
def Editor.encodePixelAt (img : Image) (a pos : Nat) : Image :=
  img.setFlatPixel pos (Editor.encodePixelVal a (img.getFlatPixel pos))

/-- The loop `for x in range(len(text)): self._encode_pixel(text[x], x+2)`,
started at an arbitrary position. -/
def Editor.encodeChars (img : Image) (cs : List Nat) (pos : Nat) : Image :=
  match cs with
  | [] => img
  | c :: rest => Editor.encodeChars (Editor.encodePixelAt img c pos) rest (pos + 1)

/-- `Editor.encode(text)`: returns `False` without mutating when the text is
too long or the image too small; otherwise writes the begin marker (125, 126),
the characters from flat position 2 on, and the end marker (126, 125), and
returns `True`. -/
def Editor.encode (img : Image) (text : List Nat) : Bool × Image :=
  if 999999 < text.length ∨ img.pixels.length < text.length + 4 then (false, img)
  else
    (true,
      Editor.encodePixelAt
        (Editor.encodePixelAt
          (Editor.encodeChars
            (Editor.encodePixelAt (Editor.encodePixelAt img 125 0) 126 1)
            text 2)
          126 (text.length + 2))
        125 (text.length + 3))

/-- The loop `for y in range(2, length)`: stop with the text accumulated so
far on the first pixel that decodes to 126; `none` if the indices run out. -/
def Editor.decodeScan (img : Image) : List Nat → Option (List Nat)
  | [] => none
  | y :: ys =>
    if Editor.decodePixel img y = 126 then some []
    else (Editor.decodeScan img ys).map (fun t => Editor.decodePixel img y :: t)

/-- `Editor.decode()`: if pixel 0 decodes to 125, scan from flat position 2;
otherwise (and when the scan runs out) the Python code returns `None`,
embedded as `none`. -/
def Editor.decode (img : Image) : Option (List Nat) :=
  if Editor.decodePixel img 0 = 125 then
    Editor.decodeScan img (List.range' 2 (img.pixels.length - 2))
  else none

-- ### Lemmas about the encode pipeline

theorem encodeChannel_mod10 (v d : Nat) (hd : d ≤ 9) :
    Editor.encodeChannel v d % 10 = d := by
  unfold Editor.encodeChannel Editor.encodeDigitRaw
  split_ifs <;> omega

theorem encodePixelAt_length (img : Image) (a pos : Nat) :
    (Editor.encodePixelAt img a pos).pixels.length = img.pixels.length := by
  simp [Editor.encodePixelAt, Image.setFlatPixel]

theorem encodeChars_length (cs : List Nat) (img : Image) (pos : Nat) :
    (Editor.encodeChars img cs pos).pixels.length = img.pixels.length := by
  induction cs generalizing img pos with
  | nil => rfl
  | cons c rest ih =>
    simp [Editor.encodeChars, ih, encodePixelAt_length]

theorem decodePixel_encodePixelAt_ne (img : Image) (a pos m : Nat) (h : m ≠ pos) :
    Editor.decodePixel (Editor.encodePixelAt img a pos) m = Editor.decodePixel img m := by
  unfold Editor.decodePixel Editor.encodePixelAt Image.setFlatPixel Image.getFlatPixel
  simp only
  rw [getD_set_ne h]

theorem decodePixel_encodePixelAt_self (img : Image) (a pos : Nat)
    (hpos : pos < img.pixels.length) (ha : a ≤ 999) :
    Editor.decodePixel (Editor.encodePixelAt img a pos) pos = a := by
  unfold Editor.decodePixel Editor.encodePixelAt Image.setFlatPixel Image.getFlatPixel
  simp only
  rw [getD_set_self hpos]
  unfold Editor.encodePixelVal
  simp only
  rw [encodeChannel_mod10 _ _ (by omega), encodeChannel_mod10 _ _ (by omega),
    encodeChannel_mod10 _ _ (by omega)]
  omega

theorem decodePixel_encodeChars_out (cs : List Nat) (img : Image) (pos m : Nat)
    (h : m < pos ∨ pos + cs.length ≤ m) :
    Editor.decodePixel (Editor.encodeChars img cs pos) m = Editor.decodePixel img m := by
  induction cs generalizing img pos with
  | nil => rfl
  | cons c rest ih =>
    simp only [Editor.encodeChars]
    rw [ih _ (pos + 1) (by simp at h; omega)]
    exact decodePixel_encodePixelAt_ne img c pos m (by simp at h; omega)

theorem decodePixel_encodeChars_at (cs : List Nat) (img : Image) (pos k : Nat)
    (hk : k < cs.length) (hpos : pos + k < img.pixels.length)
    (hc : ∀ c ∈ cs, c ≤ 999) :
    Editor.decodePixel (Editor.encodeChars img cs pos) (pos + k) = cs.getD k 0 := by
  induction cs generalizing img pos k with
  | nil => simp at hk
  | cons c rest ih =>
    cases k with
    | zero =>
      simp only [Editor.encodeChars, Nat.add_zero]
      rw [decodePixel_encodeChars_out rest _ (pos + 1) pos (by omega)]
      rw [decodePixel_encodePixelAt_self img c pos (by omega)
          (hc c (List.mem_cons_self c rest))]
      rfl
    | succ j =>
      simp only [Editor.encodeChars, List.getD]
      have h1 : pos + (j + 1) = (pos + 1) + j := by omega
      rw [h1]
      rw [ih _ (pos + 1) j (by simpa using hk)
        (by rw [encodePixelAt_length]; omega)
        (fun x hx => hc x (List.mem_cons_of_mem c hx))]
      simp [List.getD]

theorem getD_mem {α : Type} {l : List α} {k : Nat} {d : α} (h : k < l.length) :
    l.getD k d ∈ l := by
  induction l generalizing k with
  | nil => simp at h
  | cons x xs ih =>
    cases k with
    | zero => simp [List.getD]
    | succ m =>
      simp only [List.getD]
      exact List.mem_cons_of_mem x (ih (by simpa using h))

-- ### Lemmas about the decode scan

theorem decodeScan_append (img : Image) (l1 l2 : List Nat)
    (h : ∀ y ∈ l1, Editor.decodePixel img y ≠ 126) :
    Editor.decodeScan img (l1 ++ l2)
      = (Editor.decodeScan img l2).map (fun t => l1.map (Editor.decodePixel img) ++ t) := by
  induction l1 with
  | nil =>
    cases h2 : Editor.decodeScan img l2 <;> simp [h2]
  | cons y ys ih =>
    simp only [List.cons_append, Editor.decodeScan]
    rw [if_neg (h y (List.mem_cons_self y ys))]
    simp only [List.append_eq]
    rw [ih (fun z hz => h z (List.mem_cons_of_mem _ hz))]
    cases h2 : Editor.decodeScan img l2 <;> simp [h2]

theorem decodeScan_cons_terminator (img : Image) (z : Nat) (ys : List Nat)
    (h : Editor.decodePixel img z = 126) :
    Editor.decodeScan img (z :: ys) = some [] := by
  simp [Editor.decodeScan, h]

theorem decodeScan_none (img : Image) (L : List Nat)
    (h : ∀ y ∈ L, Editor.decodePixel img y ≠ 126) :
    Editor.decodeScan img L = none := by
  induction L with
  | nil => rfl
  | cons y ys ih =>
    simp only [Editor.decodeScan]
    rw [if_neg (h y (List.mem_cons_self y ys))]
    rw [ih (fun z hz => h z (List.mem_cons_of_mem _ hz))]
    rfl

theorem decodeScan_congr (a b : Image) (L : List Nat)
    (h : ∀ y ∈ L, Editor.decodePixel a y = Editor.decodePixel b y) :
    Editor.decodeScan a L = Editor.decodeScan b L := by
  induction L with
  | nil => rfl
  | cons y ys ih =>
    simp only [Editor.decodeScan]
    rw [h y (List.mem_cons_self y ys), ih (fun z hz => h z (List.mem_cons_of_mem _ hz))]

theorem map_range'_decodePixel (img : Image) (cs : List Nat) :
    ∀ pos, (∀ k, k < cs.length → Editor.decodePixel img (pos + k) = cs.getD k 0) →
    (List.range' pos cs.length).map (Editor.decodePixel img) = cs := by
  induction cs with
  | nil => simp
  | cons c rest ih =>
    intro pos h
    have hr : List.range' pos (rest.length + 1) = pos :: List.range' (pos + 1) rest.length :=
      List.range'_succ pos rest.length 1
    simp only [List.length_cons, hr, List.map_cons]
    have h0 : Editor.decodePixel img pos = c := by
      have := h 0 (by simp only [List.length_cons]; omega)
      simpa using this
    rw [h0, ih (pos + 1) (fun k hk => by
      have := h (k + 1) (by simp only [List.length_cons]; omega)
      have he : pos + (k + 1) = pos + 1 + k := by omega
      rw [he] at this
      simpa [List.getD] using this)]

theorem range'_split_terminator (L m : Nat) (h : 2 + m < L) :
    List.range' 2 (L - 2)
      = List.range' 2 m ++ ((2 + m) :: List.range' (2 + m + 1) (L - 3 - m)) := by
  have h1 := List.range'_append_1 2 m (L - 2 - m)
  have h2 : (L - 2 - m) + m = L - 2 := by omega
  have h4 : L - 2 - m = (L - 3 - m) + 1 := by omega
  have h3 : List.range' (2 + m) (L - 2 - m)
      = (2 + m) :: List.range' (2 + m + 1) (L - 3 - m) := by
    rw [h4]
    exact List.range'_succ (2 + m) (L - 3 - m) 1
  rw [← h2, ← h1, h3]

-- ### C3 (amended): the steganography round trip

/-- C3 (amended): for every ASCII text (codes at most 127) that contains no
character with code 126, with `len(text) <= 999999` and
`len(text) + 4 <=` the image's pixel count, `decode` after `encode` returns
exactly the text.  (A text containing the character `~` = code 126 is decoded
only up to that character, since 126 is also the end-of-message marker.) -/
theorem encode_decode_roundtrip (img : Image) (text : List Nat)
    (hascii : ∀ c ∈ text, c ≤ 127) (hno126 : ∀ c ∈ text, c ≠ 126)
    (hlen : text.length ≤ 999999) (hcap : text.length + 4 ≤ img.pixels.length) :
    Editor.decode (Editor.encode img text).2 = some text := by
  have hguard : ¬ (999999 < text.length ∨ img.pixels.length < text.length + 4) := by omega
  have henc : (Editor.encode img text).2
      = Editor.encodePixelAt
          (Editor.encodePixelAt
            (Editor.encodeChars
              (Editor.encodePixelAt (Editor.encodePixelAt img 125 0) 126 1)
              text 2)
            126 (text.length + 2))
          125 (text.length + 3) := by
    unfold Editor.encode
    rw [if_neg hguard]
  rw [henc]
  set i2 := Editor.encodePixelAt (Editor.encodePixelAt img 125 0) 126 1 with hi2
  set i3 := Editor.encodeChars i2 text 2 with hi3
  set F := Editor.encodePixelAt (Editor.encodePixelAt i3 126 (text.length + 2))
      125 (text.length + 3) with hF
  have hlen2 : i2.pixels.length = img.pixels.length := by
    rw [hi2, encodePixelAt_length, encodePixelAt_length]
  have hlen3 : i3.pixels.length = img.pixels.length := by
    rw [hi3, encodeChars_length, hlen2]
  have hlenF : F.pixels.length = img.pixels.length := by
    rw [hF, encodePixelAt_length, encodePixelAt_length, hlen3]
  have hF0 : Editor.decodePixel F 0 = 125 := by
    rw [hF]
    rw [decodePixel_encodePixelAt_ne _ 125 (text.length + 3) 0 (by omega)]
    rw [decodePixel_encodePixelAt_ne _ 126 (text.length + 2) 0 (by omega)]
    rw [hi3, decodePixel_encodeChars_out text i2 2 0 (by omega)]
    rw [hi2, decodePixel_encodePixelAt_ne _ 126 1 0 (by omega)]
    exact decodePixel_encodePixelAt_self img 125 0 (by omega) (by omega)
  have hFmid : ∀ k, k < text.length → Editor.decodePixel F (2 + k) = text.getD k 0 := by
    intro k hk
    rw [hF]
    rw [decodePixel_encodePixelAt_ne _ 125 (text.length + 3) (2 + k) (by omega)]
    rw [decodePixel_encodePixelAt_ne _ 126 (text.length + 2) (2 + k) (by omega)]
    rw [hi3]
    exact decodePixel_encodeChars_at text i2 2 k hk (by rw [hlen2]; omega)
      (fun c hc => by have := hascii c hc; omega)
  have hFend : Editor.decodePixel F (2 + text.length) = 126 := by
    have hc : 2 + text.length = text.length + 2 := by omega
    rw [hF, hc]
    rw [decodePixel_encodePixelAt_ne _ 125 (text.length + 3) (text.length + 2) (by omega)]
    exact decodePixel_encodePixelAt_self i3 126 (text.length + 2) (by rw [hlen3]; omega)
      (by omega)
  unfold Editor.decode
  rw [if_pos hF0, hlenF]
  rw [range'_split_terminator img.pixels.length text.length (by omega)]
  rw [decodeScan_append F (List.range' 2 text.length) _ (by
    intro y hy
    rw [List.mem_range'_1] at hy
    have hk : y - 2 < text.length := by omega
    have he : y = 2 + (y - 2) := by omega
    rw [he, hFmid (y - 2) hk]
    exact hno126 _ (getD_mem hk))]
  rw [decodeScan_cons_terminator F (2 + text.length) _ hFend]
  rw [map_range'_decodePixel F text 2 (fun k hk => hFmid k hk)]
  simp

/-- Witness for C3 at a concrete image and text. -/
theorem encode_decode_roundtrip_witness :
    Editor.decode
      (Editor.encode (Image.make (List.replicate 6 ((10, 20, 30) : Pixel)) 2)
        [104, 33]).2 = some [104, 33] :=
  encode_decode_roundtrip _ _ (by decide) (by decide) (by decide) (by decide)

/-- C3 counterexample: the text `[126]` (the ASCII character `~`) satisfies
every hypothesis of the claim, yet the round trip returns the empty text, not
`[126]`: the decoder stops on the first pixel that decodes to 126. -/
theorem encode_decode_roundtrip_counterexample :
    (∀ c ∈ ([126] : List Nat), c ≤ 127) ∧
    ([126] : List Nat).length ≤ 999999 ∧
    ([126] : List Nat).length + 4
      ≤ (Image.make (List.replicate 5 ((0, 0, 0) : Pixel)) 5).pixels.length ∧
    Editor.decode
      (Editor.encode (Image.make (List.replicate 5 ((0, 0, 0) : Pixel)) 5) [126]).2
      = some [] ∧
    Editor.decode
      (Editor.encode (Image.make (List.replicate 5 ((0, 0, 0) : Pixel)) 5) [126]).2
      ≠ some [126] := by
  decide

-- ### C4: encode's failure condition

/-- C4: `encode` returns failure, leaving the image untouched, exactly when
the text is longer than 999999 or `len(text) + 4` exceeds the pixel count;
otherwise it returns success. -/
theorem encode_failure_iff (img : Image) (text : List Nat) :
    ((Editor.encode img text).1 = false ↔
      (999999 < text.length ∨ img.pixels.length < text.length + 4)) ∧
    ((Editor.encode img text).1 = false → (Editor.encode img text).2 = img) := by
  unfold Editor.encode
  by_cases hc : 999999 < text.length ∨ img.pixels.length < text.length + 4
  · rw [if_pos hc]
    exact ⟨⟨fun _ => hc, fun _ => rfl⟩, fun _ => rfl⟩
  · rw [if_neg hc]
    refine ⟨⟨fun hfalse => by simp at hfalse, fun h => absurd h hc⟩, fun hfalse => by simp at hfalse⟩

/-- Witness for C4: a 3-pixel image cannot hold even the empty message. -/
theorem encode_failure_iff_witness :
    (Editor.encode (Image.make (List.replicate 3 ((0, 0, 0) : Pixel)) 3) []).1 = false ∧
    (Editor.encode (Image.make (List.replicate 3 ((0, 0, 0) : Pixel)) 3) []).2
      = Image.make (List.replicate 3 ((0, 0, 0) : Pixel)) 3 :=
  have h1 : (Editor.encode (Image.make (List.replicate 3 ((0, 0, 0) : Pixel)) 3) []).1 = false :=
    (encode_failure_iff _ _).1.mpr (Or.inr (by decide))
  ⟨h1, (encode_failure_iff _ _).2 h1⟩

-- ### C9: digit congruence of the encoded channels

/-- C9: for channels in `0..255` and a character code at most 999, each channel
written by `_encode_pixel` is congruent mod 10 to the corresponding digit
(hundreds, tens, units) of the zero-padded code — also when the overflow
correction (subtract 10 above 255) fires, since subtracting 10 keeps the last
decimal digit. -/
theorem encodePixel_digit_congruence (v1 v2 v3 a : Nat)
    (h1 : v1 ≤ 255) (h2 : v2 ≤ 255) (h3 : v3 ≤ 255) (ha : a ≤ 999) :
    (Editor.encodePixelVal a (v1, v2, v3)).1 % 10 = a / 100 ∧
    (Editor.encodePixelVal a (v1, v2, v3)).2.1 % 10 = a / 10 % 10 ∧
    (Editor.encodePixelVal a (v1, v2, v3)).2.2 % 10 = a % 10 :=
  ⟨encodeChannel_mod10 v1 (a / 100) (by omega),
   encodeChannel_mod10 v2 (a / 10 % 10) (by omega),
   encodeChannel_mod10 v3 (a % 10) (by omega)⟩

/-- Witness for C9 at channels that trigger the overflow correction
(99 becomes 991 → 981, 250 becomes 252, 5 becomes 56). -/
theorem encodePixel_digit_congruence_witness :
    (Editor.encodePixelVal 126 (99, 250, 5)).1 % 10 = 126 / 100 ∧
    (Editor.encodePixelVal 126 (99, 250, 5)).2.1 % 10 = 126 / 10 % 10 ∧
    (Editor.encodePixelVal 126 (99, 250, 5)).2.2 % 10 = 126 % 10 :=
  encodePixel_digit_congruence 99 250 5 126 (by decide) (by decide) (by decide) (by decide)

-- ### C5 (amended): what decode actually checks and returns

/-- C5 (amended): `decode` treats the image as containing a payload exactly
when pixel 0 *decodes* to 125 (that is, `(r%10)*100 + (g%10)*10 + b%10 = 125`
— not when the raw red channel equals 125); in that case it scans from flat
index 2, returning the accumulated codes up to the first pixel that decodes to
126; otherwise it returns `None` (embedded as `none`), not a string. -/
theorem decode_characterization (img : Image) (m : Nat)
    (hm : 2 + m < img.pixels.length) :
    (Editor.decodePixel img 0 ≠ 125 → Editor.decode img = none) ∧
    (Editor.decodePixel img 0 = 125 →
      (∀ k, k < m → Editor.decodePixel img (2 + k) ≠ 126) →
      Editor.decodePixel img (2 + m) = 126 →
      Editor.decode img = some ((List.range' 2 m).map (Editor.decodePixel img))) := by
  constructor
  · intro hne
    unfold Editor.decode
    rw [if_neg hne]
  · intro h125 hno h126
    unfold Editor.decode
    rw [if_pos h125]
    rw [range'_split_terminator img.pixels.length m hm]
    rw [decodeScan_append img (List.range' 2 m) _ (by
      intro y hy
      rw [List.mem_range'_1] at hy
      have he : y = 2 + (y - 2) := by omega
      rw [he]
      exact hno (y - 2) (by omega))]
    rw [decodeScan_cons_terminator img (2 + m) _ h126]
    simp

/-- Witness for C5: both branches at concrete images — one whose first pixel
does not decode to 125, and one with payload `[41]` terminated at index 3. -/
theorem decode_characterization_witness :
    Editor.decode (Image.make (List.replicate 4 ((0, 0, 0) : Pixel)) 4) = none ∧
    Editor.decode (Image.make [(1, 2, 5), (7, 7, 7), (0, 4, 1), (1, 2, 6), (0, 0, 0)] 5)
      = some ((List.range' 2 1).map
          (Editor.decodePixel (Image.make [(1, 2, 5), (7, 7, 7), (0, 4, 1), (1, 2, 6), (0, 0, 0)] 5))) :=
  ⟨(decode_characterization (Image.make (List.replicate 4 ((0, 0, 0) : Pixel)) 4) 0
      (by decide)).1 (by decide),
   (decode_characterization (Image.make [(1, 2, 5), (7, 7, 7), (0, 4, 1), (1, 2, 6), (0, 0, 0)] 5) 1
      (by decide)).2 (by decide)
      (fun k hk => by
        have hk0 : k = 0 := by omega
        subst hk0
        decide)
      (by decide)⟩

/-- C5 counterexample: an image whose first pixel's *red channel* is exactly
125 — the claim says this is treated as a payload, but `decode` checks the
decoded value `(125%10)*100 + 0 + 0 = 500 ≠ 125` and returns the no-message
result, which moreover is Python `None` (`none`), not a string. -/
theorem decode_characterization_counterexample :
    ((Image.make [(125, 0, 0), (0, 0, 0), (1, 2, 6), (0, 0, 0), (0, 0, 0)] 5).getFlatPixel 0).1
      = 125 ∧
    Editor.decode (Image.make [(125, 0, 0), (0, 0, 0), (1, 2, 6), (0, 0, 0), (0, 0, 0)] 5)
      = none := by
  decide

-- ### C10: begin marker with no end marker

/-- C10: if pixel 0 decodes to 125 but no pixel at flat index 2 or beyond
decodes to 126, `decode` returns the no-message result (`none`) rather than
the accumulated text; and the marker pixel at flat index 1 is never inspected
(overwriting it does not change the result of `decode`). -/
theorem decode_missing_terminator (img : Image)
    (h125 : Editor.decodePixel img 0 = 125)
    (hno : ∀ j, 2 ≤ j → j < img.pixels.length → Editor.decodePixel img j ≠ 126) :
    Editor.decode img = none ∧
    (∀ q : Pixel, Editor.decode (img.setFlatPixel 1 q) = Editor.decode img) := by
  have hdp : ∀ (q : Pixel) (j : Nat), j ≠ 1 →
      Editor.decodePixel (img.setFlatPixel 1 q) j = Editor.decodePixel img j := by
    intro q j hne
    unfold Editor.decodePixel Image.setFlatPixel Image.getFlatPixel
    simp only
    rw [getD_set_ne hne]
  constructor
  · unfold Editor.decode
    rw [if_pos h125]
    apply decodeScan_none
    intro y hy
    rw [List.mem_range'_1] at hy
    exact hno y (by omega) (by omega)
  · intro q
    unfold Editor.decode
    have hlen : (img.setFlatPixel 1 q).pixels.length = img.pixels.length := by
      simp [Image.setFlatPixel]
    rw [hlen, hdp q 0 (by omega)]
    by_cases hc : Editor.decodePixel img 0 = 125
    · rw [if_pos hc, if_pos hc]
      apply decodeScan_congr
      intro y hy
      rw [List.mem_range'_1] at hy
      exact hdp q y (by omega)
    · rw [if_neg hc, if_neg hc]

/-- Witness for C10: begin marker present (pixel 0 decodes to 125), no pixel
from index 2 on decodes to 126. -/
theorem decode_missing_terminator_witness :
    Editor.decode (Image.make [(1, 2, 5), (9, 9, 9), (0, 0, 0)] 3) = none ∧
    Editor.decode ((Image.make [(1, 2, 5), (9, 9, 9), (0, 0, 0)] 3).setFlatPixel 1 (4, 4, 4))
      = Editor.decode (Image.make [(1, 2, 5), (9, 9, 9), (0, 0, 0)] 3) :=
  have h := decode_missing_terminator (Image.make [(1, 2, 5), (9, 9, 9), (0, 0, 0)] 3)
    (by decide)
    (fun j h1 h2 => by
      have hl : (Image.make [(1, 2, 5), (9, 9, 9), (0, 0, 0)] 3).pixels.length = 3 := rfl
      rw [hl] at h2
      have hj : j = 2 := by omega
      subst hj
      decide)
  ⟨h.1, h.2 (4, 4, 4)⟩

-- ### Generic machinery for the editor's write loops
-- The geometric loops write pixel (row, col) of the reshaped image for every
-- (row, col) of its shape, reading only a frozen copy, so the nested loop is
-- a fold of `setPixel` over the row-major list of positions.

theorem setPixel_width (P : Image) (r c : Nat) (v : Pixel) :
    (P.setPixel r c v).width = P.width := rfl

theorem setPixel_height (P : Image) (r c : Nat) (v : Pixel) :
    (P.setPixel r c v).height = P.height := rfl

theorem setPixel_length (P : Image) (r c : Nat) (v : Pixel) :
    (P.setPixel r c v).pixels.length = P.pixels.length := by
  simp [Image.setPixel]

theorem index_lt_of_lt (r c w h : Nat) (hr : r < h) (hc : c < w) :
    r * w + c < w * h := by
  calc r * w + c < r * w + w := by omega
    _ = (r + 1) * w := by ring
    _ ≤ h * w := Nat.mul_le_mul_right w (by omega)
    _ = w * h := Nat.mul_comm h w

theorem getPixel_setPixel_self (P : Image) (r c : Nat) (v : Pixel)
    (hidx : r * P.width + c < P.pixels.length) :
    (P.setPixel r c v).getPixel r c = v := by
  unfold Image.setPixel Image.getPixel
  exact getD_set_self hidx

theorem getPixel_setPixel_ne (P : Image) (r c r2 c2 : Nat) (v : Pixel)
    (hw : 0 < P.width) (hc : c < P.width) (hc2 : c2 < P.width)
    (hne : (r, c) ≠ (r2, c2)) :
    (P.setPixel r2 c2 v).getPixel r c = P.getPixel r c := by
  unfold Image.setPixel Image.getPixel
  apply getD_set_ne
  intro heq
  have heq2 : r * P.width + c = r2 * P.width + c2 := heq
  have hmod := congrArg (fun t => t % P.width) heq2
  simp only at hmod
  rw [Nat.add_comm (r * P.width) c, Nat.add_comm (r2 * P.width) c2,
    Nat.add_mul_mod_self_right, Nat.add_mul_mod_self_right,
    Nat.mod_eq_of_lt hc, Nat.mod_eq_of_lt hc2] at hmod
  subst hmod
  have hmul : r * P.width = r2 * P.width := by omega
  have hrr : r = r2 := Nat.eq_of_mul_eq_mul_right hw hmul
  exact hne (by rw [hrr])

theorem foldl_setPixel_dims (g : Nat × Nat → Pixel) (L : List (Nat × Nat)) :
    ∀ P : Image,
    (L.foldl (fun acc p => acc.setPixel p.1 p.2 (g p)) P).width = P.width ∧
    (L.foldl (fun acc p => acc.setPixel p.1 p.2 (g p)) P).height = P.height ∧
    (L.foldl (fun acc p => acc.setPixel p.1 p.2 (g p)) P).pixels.length = P.pixels.length := by
  induction L with
  | nil => intro P; exact ⟨rfl, rfl, rfl⟩
  | cons p rest ih =>
    intro P
    simp only [List.foldl_cons]
    obtain ⟨h1, h2, h3⟩ := ih (P.setPixel p.1 p.2 (g p))
    exact ⟨h1.trans (setPixel_width P p.1 p.2 (g p)),
           h2.trans (setPixel_height P p.1 p.2 (g p)),
           h3.trans (setPixel_length P p.1 p.2 (g p))⟩

theorem foldl_setPixel_getPixel (g : Nat × Nat → Pixel) (L : List (Nat × Nat)) :
    ∀ P : Image, 0 < P.width → P.pixels.length = P.width * P.height →
    (∀ p ∈ L, p.1 < P.height ∧ p.2 < P.width) →
    ∀ r c, c < P.width →
      (L.foldl (fun acc p => acc.setPixel p.1 p.2 (g p)) P).getPixel r c
        = if (r, c) ∈ L then g (r, c) else P.getPixel r c := by
  induction L with
  | nil =>
    intro P _ _ _ r c _
    simp
  | cons p rest ih =>
    intro P hw hlen hb r c hc
    obtain ⟨hp1, hp2⟩ := hb p (List.mem_cons_self p rest)
    simp only [List.foldl_cons]
    have hrec := ih (P.setPixel p.1 p.2 (g p)) hw
      (by rw [setPixel_length]; exact hlen)
      (fun q hq => hb q (List.mem_cons_of_mem p hq)) r c hc
    rw [hrec]
    by_cases hmem : (r, c) ∈ rest
    · rw [if_pos hmem, if_pos (List.mem_cons_of_mem p hmem)]
    · rw [if_neg hmem]
      by_cases hhead : (r, c) = p
      · rw [if_pos (by rw [List.mem_cons]; exact Or.inl hhead)]
        subst hhead
        exact getPixel_setPixel_self P r c (g (r, c))
          (by rw [hlen]; exact index_lt_of_lt r c P.width P.height hp1 hp2)
      · rw [if_neg (by rw [List.mem_cons]; push_neg; exact ⟨hhead, hmem⟩)]
        exact getPixel_setPixel_ne P r c p.1 p.2 (g p) hw hc hp2
          (by intro hcon; exact hhead (by rw [hcon]))

/-- The row-major list of all (row, col) positions of an H x W shape, in the
order of the nested loops `for row in range(H): for col in range(W)`. -/
def rowMajorPairs (H W : Nat) : List (Nat × Nat) :=
  (List.range H).flatMap (fun r => (List.range W).map (fun c => (r, c)))

theorem mem_rowMajorPairs (H W r c : Nat) :
    (r, c) ∈ rowMajorPairs H W ↔ r < H ∧ c < W := by
  simp [rowMajorPairs, List.mem_flatMap, List.mem_map, List.mem_range]

/-- The nested loop `for row in range(height): for col in range(width):
setPixel(row, col, f(row, col))` of the geometric transforms, as a fold over
the row-major position list (each position is written exactly once and `f`
reads only the frozen copy, never the image being written). -/
def Editor.writeAll (img : Image) (f : Nat → Nat → Pixel) : Image :=
  (rowMajorPairs img.height img.width).foldl
    (fun acc p => acc.setPixel p.1 p.2 (f p.1 p.2)) img

theorem writeAll_spec (img : Image) (f : Nat → Nat → Pixel)
    (hw : 0 < img.width) (hlen : img.pixels.length = img.width * img.height) :
    (Editor.writeAll img f).width = img.width ∧
    (Editor.writeAll img f).height = img.height ∧
    (Editor.writeAll img f).pixels.length = img.pixels.length ∧
    ∀ r c, r < img.height → c < img.width → (Editor.writeAll img f).getPixel r c = f r c := by
  obtain ⟨h1, h2, h3⟩ := foldl_setPixel_dims (fun p => f p.1 p.2)
    (rowMajorPairs img.height img.width) img
  refine ⟨h1, h2, h3, ?_⟩
  intro r c hr hc
  have := foldl_setPixel_getPixel (fun p => f p.1 p.2)
    (rowMajorPairs img.height img.width) img hw hlen
    (fun q hq => by
      obtain ⟨q1, q2⟩ := q
      exact (mem_rowMajorPairs img.height img.width q1 q2).mp hq) r c hc
  rw [Editor.writeAll, this, if_pos ((mem_rowMajorPairs img.height img.width r c).mpr ⟨hr, hc⟩)]

-- ### The 90-degree rotations (C7)

/-- `Editor.rotateRight`: take a frozen copy, reshape the current image with
`setWidth(getHeight())`, then write every pixel of the new shape from the
copy via `original.getPixel(original.getHeight()-col-1, row)`. -/
def Editor.rotateRight (img : Image) : Image :=
  Editor.writeAll (img.setWidth img.height)
    (fun row col => img.getPixel (img.height - col - 1) row)

/-- `Editor.rotateLeft`: same shape change, writing
`original.getPixel(col, original.getWidth()-row-1)`. -/
def Editor.rotateLeft (img : Image) : Image :=
  Editor.writeAll (img.setWidth img.height)
    (fun row col => img.getPixel col (img.width - row - 1))

theorem setWidth_to_height_dims (img : Image) (hh : 0 < img.height)
    (hlen : img.pixels.length = img.width * img.height) :
    (img.setWidth img.height).width = img.height ∧
    (img.setWidth img.height).height = img.width ∧
    (img.setWidth img.height).pixels.length = img.pixels.length := by
  refine ⟨rfl, ?_, rfl⟩
  show img.pixels.length / img.height = img.width
  rw [hlen]
  exact Nat.mul_div_cancel img.width hh

theorem rotateRight_spec (img : Image) (hw : 0 < img.width) (hh : 0 < img.height)
    (hlen : img.pixels.length = img.width * img.height) :
    (Editor.rotateRight img).width = img.height ∧
    (Editor.rotateRight img).height = img.width ∧
    (Editor.rotateRight img).pixels.length = img.pixels.length ∧
    ∀ r c, r < img.width → c < img.height →
      (Editor.rotateRight img).getPixel r c = img.getPixel (img.height - c - 1) r := by
  obtain ⟨hW, hH, hL⟩ := setWidth_to_height_dims img hh hlen
  have hspec := writeAll_spec (img.setWidth img.height)
    (fun row col => img.getPixel (img.height - col - 1) row)
    (by rw [hW]; exact hh) (by rw [hL, hW, hH, hlen, Nat.mul_comm])
  obtain ⟨h1, h2, h3, h4⟩ := hspec
  refine ⟨h1.trans hW, h2.trans hH, h3.trans hL, ?_⟩
  intro r c hr hc
  exact h4 r c (by rw [hH]; exact hr) (by rw [hW]; exact hc)

theorem rotateLeft_spec (img : Image) (hw : 0 < img.width) (hh : 0 < img.height)
    (hlen : img.pixels.length = img.width * img.height) :
    (Editor.rotateLeft img).width = img.height ∧
    (Editor.rotateLeft img).height = img.width ∧
    (Editor.rotateLeft img).pixels.length = img.pixels.length ∧
    ∀ r c, r < img.width → c < img.height →
      (Editor.rotateLeft img).getPixel r c = img.getPixel c (img.width - r - 1) := by
  obtain ⟨hW, hH, hL⟩ := setWidth_to_height_dims img hh hlen
  have hspec := writeAll_spec (img.setWidth img.height)
    (fun row col => img.getPixel col (img.width - row - 1))
    (by rw [hW]; exact hh) (by rw [hL, hW, hH, hlen, Nat.mul_comm])
  obtain ⟨h1, h2, h3, h4⟩ := hspec
  refine ⟨h1.trans hW, h2.trans hH, h3.trans hL, ?_⟩
  intro r c hr hc
  exact h4 r c (by rw [hH]; exact hr) (by rw [hW]; exact hc)

theorem image_eq_of_getPixel (A B : Image)
    (hwidth : A.width = B.width) (hheight : A.height = B.height)
    (hlen : A.pixels.length = B.pixels.length)
    (hBlen : B.pixels.length = B.width * B.height) (hw : 0 < B.width)
    (hpix : ∀ r c, r < B.height → c < B.width → A.getPixel r c = B.getPixel r c) :
    A = B := by
  have hpixels : A.pixels = B.pixels := by
    apply List.ext_getElem hlen
    intro i hiA hiB
    have hc : i % B.width < B.width := Nat.mod_lt i hw
    have hr : i / B.width < B.height := by
      rw [Nat.div_lt_iff_lt_mul hw]
      have hi : i < B.width * B.height := by rw [← hBlen]; exact hiB
      rw [Nat.mul_comm] at hi
      exact hi
    have hidx : i / B.width * B.width + i % B.width = i := by
      rw [Nat.mul_comm (i / B.width) B.width]
      exact Nat.div_add_mod i B.width
    have h3 := hpix (i / B.width) (i % B.width) hr hc
    unfold Image.getPixel at h3
    rw [hwidth, hidx] at h3
    rw [getD_eq_getElem hiA, getD_eq_getElem hiB] at h3
    exact h3
  rcases A with ⟨pa, wa, ha⟩
  rcases B with ⟨pb, wb, hb⟩
  rw [Image.mk.injEq]
  exact ⟨hpixels, hwidth, hheight⟩

/-- C7: rotating right then left (and left then right) restores every pixel
and the original width and height exactly. -/
theorem rotate_round_trip (img : Image) (hw : 0 < img.width) (hh : 0 < img.height)
    (hlen : img.pixels.length = img.width * img.height) :
    Editor.rotateLeft (Editor.rotateRight img) = img ∧
    Editor.rotateRight (Editor.rotateLeft img) = img := by
  constructor
  · obtain ⟨jW, jH, jL, jPix⟩ := rotateRight_spec img hw hh hlen
    have jlen : (Editor.rotateRight img).pixels.length
        = (Editor.rotateRight img).width * (Editor.rotateRight img).height := by
      rw [jL, jW, jH, hlen, Nat.mul_comm]
    obtain ⟨kW, kH, kL, kPix⟩ := rotateLeft_spec (Editor.rotateRight img)
      (by rw [jW]; exact hh) (by rw [jH]; exact hw) jlen
    apply image_eq_of_getPixel _ _ (by rw [kW, jH]) (by rw [kH, jW]) (by rw [kL, jL]) hlen hw
    intro r c hr hc
    rw [kPix r c (by rw [jW]; exact hr) (by rw [jH]; exact hc)]
    rw [jW]
    rw [jPix c (img.height - r - 1) hc (by omega)]
    have harg : img.height - (img.height - r - 1) - 1 = r := by omega
    rw [harg]
  · obtain ⟨jW, jH, jL, jPix⟩ := rotateLeft_spec img hw hh hlen
    have jlen : (Editor.rotateLeft img).pixels.length
        = (Editor.rotateLeft img).width * (Editor.rotateLeft img).height := by
      rw [jL, jW, jH, hlen, Nat.mul_comm]
    obtain ⟨kW, kH, kL, kPix⟩ := rotateRight_spec (Editor.rotateLeft img)
      (by rw [jW]; exact hh) (by rw [jH]; exact hw) jlen
    apply image_eq_of_getPixel _ _ (by rw [kW, jH]) (by rw [kH, jW]) (by rw [kL, jL]) hlen hw
    intro r c hr hc
    rw [kPix r c (by rw [jW]; exact hr) (by rw [jH]; exact hc)]
    rw [jH]
    rw [jPix (img.width - c - 1) r (by omega) hr]
    have harg : img.width - (img.width - c - 1) - 1 = c := by omega
    rw [harg]

/-- Witness for C7 at a concrete 2x1 image. -/
theorem rotate_round_trip_witness :
    Editor.rotateLeft (Editor.rotateRight (Image.make [(1, 2, 3), (4, 5, 6)] 1))
      = Image.make [(1, 2, 3), (4, 5, 6)] 1 ∧
    Editor.rotateRight (Editor.rotateLeft (Image.make [(1, 2, 3), (4, 5, 6)] 1))
      = Image.make [(1, 2, 3), (4, 5, 6)] 1 :=
  rotate_round_trip (Image.make [(1, 2, 3), (4, 5, 6)] 1) (by decide) (by decide) (by decide)

-- ### Pixellation (C6)

/-- Python's `round` applied to the quotient `p / q` (so `round(r/step**2)` in
`pixelavg`): nearest integer, ties to even. -/
def pyRound (p q : Nat) : Nat :=
  if 2 * (p % q) < q then p / q
  else if q < 2 * (p % q) then p / q + 1
  else if p / q % 2 = 0 then p / q else p / q + 1

/-- The summation loop of `pixelavg`: add up each channel over the in-bounds
pixels of the `step x step` block whose corner is `(x, y)` (the loop runs over
the whole block and skips out-of-bounds positions). -/
def Editor.blockSum (img : Image) (x y step : Nat) : Nat × Nat × Nat :=
  (rowMajorPairs step step).foldl
    (fun acc p =>
      if x + p.1 < img.height ∧ y + p.2 < img.width then
        (acc.1 + (img.getPixel (x + p.1) (y + p.2)).1,
         acc.2.1 + (img.getPixel (x + p.1) (y + p.2)).2.1,
         acc.2.2 + (img.getPixel (x + p.1) (y + p.2)).2.2)
      else acc)
    (0, 0, 0)

/-- `avgpixel` of `pixelavg`: each channel sum divided by `step**2` (always
`step**2`, also for partial edge blocks) and rounded by Python's `round`. -/
def Editor.avgPixel (img : Image) (x y step : Nat) : Pixel :=
  (pyRound (Editor.blockSum img x y step).1 (step * step),
   pyRound (Editor.blockSum img x y step).2.1 (step * step),
   pyRound (Editor.blockSum img x y step).2.2 (step * step))

/-- `Editor.pixelavg(x, y, step)`: compute the block average, then write it to
every in-bounds pixel of the block. -/
def Editor.pixelavg (img : Image) (x y step : Nat) : Image :=
  (rowMajorPairs step step).foldl
    (fun acc p =>
      if x + p.1 < acc.height ∧ y + p.2 < acc.width then
        acc.setPixel (x + p.1) (y + p.2) (Editor.avgPixel img x y step)
      else acc)
    img

/-- Python's `range(0, n, step)`: the multiples of `step` below `n`. -/
def stepRange (n step : Nat) : List Nat :=
  List.range' 0 ((n + step - 1) / step) step

/-- `Editor.pixellate(step)`: `for y in range(0, width, step): for x in
range(0, height, step): pixelavg(x, y, step)`. -/
def Editor.pixellate (img : Image) (step : Nat) : Image :=
  (stepRange img.width step).foldl
    (fun acc y => (stepRange img.height step).foldl
      (fun acc2 x => Editor.pixelavg acc2 x y step) acc)
    img

/-- The corner of the pixellation block containing row (or column) `r`. -/
def cornerRow (r step : Nat) : Nat := r / step * step

theorem foldl_guarded_setPixel (v : Pixel) (x y : Nat) (L : List (Nat × Nat)) :
    ∀ P : Image,
    L.foldl (fun acc p => if x + p.1 < acc.height ∧ y + p.2 < acc.width
        then acc.setPixel (x + p.1) (y + p.2) v else acc) P
      = (L.filter (fun p => decide (x + p.1 < P.height ∧ y + p.2 < P.width))).foldl
          (fun acc p => acc.setPixel (x + p.1) (y + p.2) v) P := by
  induction L with
  | nil => intro P; rfl
  | cons p rest ih =>
    intro P
    simp only [List.foldl_cons, List.filter_cons]
    by_cases hc : x + p.1 < P.height ∧ y + p.2 < P.width
    · rw [if_pos hc, if_pos (by simpa using hc)]
      simp only [List.foldl_cons]
      exact ih (P.setPixel (x + p.1) (y + p.2) v)
    · rw [if_neg hc, if_neg (by simpa using hc)]
      exact ih P

theorem pixelavg_dims (img : Image) (x y step : Nat) :
    (Editor.pixelavg img x y step).width = img.width ∧
    (Editor.pixelavg img x y step).height = img.height ∧
    (Editor.pixelavg img x y step).pixels.length = img.pixels.length := by
  rw [Editor.pixelavg, foldl_guarded_setPixel]
  rw [← List.foldl_map (fun p : Nat × Nat => (x + p.1, y + p.2))
    (fun (acc : Image) (q : Nat × Nat) => acc.setPixel q.1 q.2 (Editor.avgPixel img x y step))]
  exact foldl_setPixel_dims (fun _ => Editor.avgPixel img x y step) _ img

theorem pixelavg_getPixel (img : Image) (x y step : Nat) (hw : 0 < img.width)
    (hlen : img.pixels.length = img.width * img.height) :
    ∀ r c, r < img.height → c < img.width →
      (Editor.pixelavg img x y step).getPixel r c
        = if x ≤ r ∧ r < x + step ∧ y ≤ c ∧ c < y + step
          then Editor.avgPixel img x y step else img.getPixel r c := by
  intro r c hr hc
  rw [Editor.pixelavg, foldl_guarded_setPixel]
  rw [← List.foldl_map (fun p : Nat × Nat => (x + p.1, y + p.2))
    (fun (acc : Image) (q : Nat × Nat) => acc.setPixel q.1 q.2 (Editor.avgPixel img x y step))]
  rw [foldl_setPixel_getPixel (fun _ => Editor.avgPixel img x y step) _ img hw hlen
    (by
      intro q hq
      rw [List.mem_map] at hq
      obtain ⟨p, hp, hpq⟩ := hq
      rw [List.mem_filter] at hp
      have hcond := of_decide_eq_true hp.2
      rw [← hpq]
      exact hcond) r c hc]
  by_cases hblock : x ≤ r ∧ r < x + step ∧ y ≤ c ∧ c < y + step
  · rw [if_pos hblock, if_pos ?_]
    rw [List.mem_map]
    refine ⟨(r - x, c - y), ?_, ?_⟩
    · rw [List.mem_filter]
      constructor
      · rw [mem_rowMajorPairs]
        omega
      · apply decide_eq_true
        constructor
        · show x + (r - x) < img.height
          omega
        · show y + (c - y) < img.width
          omega
    · show (x + (r - x), y + (c - y)) = (r, c)
      rw [Prod.mk.injEq]
      omega
  · rw [if_neg hblock, if_neg ?_]
    intro hmem
    rw [List.mem_map] at hmem
    obtain ⟨p, hp, hpq⟩ := hmem
    rw [List.mem_filter] at hp
    have hpmem := (mem_rowMajorPairs step step p.1 p.2).mp (by
      have : (p.1, p.2) = p := rfl
      rw [this]
      exact hp.1)
    rw [Prod.mk.injEq] at hpq
    apply hblock
    omega

theorem cornerRow_add (x0 s step : Nat) (hstep : 0 < step) (hx : x0 % step = 0)
    (hs : s < step) : cornerRow (x0 + s) step = x0 := by
  unfold cornerRow
  obtain ⟨q, hq⟩ := Nat.dvd_of_mod_eq_zero hx
  subst hq
  rw [Nat.add_comm (step * q) s, Nat.add_mul_div_left s q hstep, Nat.div_eq_of_lt hs]
  rw [Nat.zero_add, Nat.mul_comm]

theorem cornerRow_bounds (r step : Nat) (hstep : 0 < step) :
    cornerRow r step ≤ r ∧ r < cornerRow r step + step := by
  unfold cornerRow
  refine ⟨Nat.div_mul_le_self r step, ?_⟩
  rw [Nat.mul_comm]
  have h1 := Nat.div_add_mod r step
  have h2 : r % step < step := Nat.mod_lt r hstep
  generalize hX : step * (r / step) = X at h1 ⊢
  generalize hM : r % step = M at h1 h2
  omega

theorem block_mem_iff (x0 y0 r c step : Nat) (hstep : 0 < step)
    (hx : x0 % step = 0) (hy : y0 % step = 0) :
    (x0 ≤ r ∧ r < x0 + step ∧ y0 ≤ c ∧ c < y0 + step)
      ↔ (cornerRow r step = x0 ∧ cornerRow c step = y0) := by
  constructor
  · intro h
    constructor
    · have h1 : r = x0 + (r - x0) := by omega
      rw [h1]
      exact cornerRow_add x0 (r - x0) step hstep hx (by omega)
    · have h2 : c = y0 + (c - y0) := by omega
      rw [h2]
      exact cornerRow_add y0 (c - y0) step hstep hy (by omega)
  · intro h
    obtain ⟨ha, hb⟩ := cornerRow_bounds r step hstep
    obtain ⟨hc1, hd⟩ := cornerRow_bounds c step hstep
    rw [h.1] at ha hb
    rw [h.2] at hc1 hd
    exact ⟨ha, hb, hc1, hd⟩

theorem blockSum_congr (A B : Image) (x y step : Nat)
    (hH : A.height = B.height) (hW : A.width = B.width)
    (hagree : ∀ s h, s < step → h < step → x + s < B.height → y + h < B.width →
      A.getPixel (x + s) (y + h) = B.getPixel (x + s) (y + h)) :
    Editor.blockSum A x y step = Editor.blockSum B x y step := by
  unfold Editor.blockSum
  apply List.foldl_ext
  intro acc p hp
  obtain ⟨p1, p2⟩ := p
  have hm := (mem_rowMajorPairs step step p1 p2).mp hp
  rw [hH, hW]
  by_cases hcond : x + p1 < B.height ∧ y + p2 < B.width
  · rw [if_pos hcond, if_pos hcond, hagree p1 p2 hm.1 hm.2 hcond.1 hcond.2]
  · rw [if_neg hcond, if_neg hcond]

theorem avgPixel_congr (A B : Image) (x y step : Nat)
    (hH : A.height = B.height) (hW : A.width = B.width)
    (hagree : ∀ s h, s < step → h < step → x + s < B.height → y + h < B.width →
      A.getPixel (x + s) (y + h) = B.getPixel (x + s) (y + h)) :
    Editor.avgPixel A x y step = Editor.avgPixel B x y step := by
  unfold Editor.avgPixel
  rw [blockSum_congr A B x y step hH hW hagree]

theorem ceil_mul_ge (n step : Nat) (hstep : 0 < step) :
    n ≤ ((n + step - 1) / step) * step := by
  have h1 := Nat.div_add_mod (n + step - 1) step
  rw [Nat.mul_comm] at h1
  have h2 : (n + step - 1) % step < step := Nat.mod_lt _ hstep
  generalize hX : (n + step - 1) / step * step = X at h1 ⊢
  generalize hM : (n + step - 1) % step = M at h1 h2
  omega

theorem cornerRow_mem_stepRange (r n step : Nat) (hstep : 0 < step) (hr : r < n) :
    cornerRow r step ∈ stepRange n step := by
  unfold stepRange
  rw [List.mem_range']
  refine ⟨r / step, ?_, ?_⟩
  · rw [Nat.div_lt_iff_lt_mul hstep]
    calc r < n := hr
      _ ≤ ((n + step - 1) / step) * step := ceil_mul_ge n step hstep
  · unfold cornerRow
    rw [Nat.zero_add, Nat.mul_comm]

theorem stepRange_mod (m n step : Nat) (hm : m ∈ stepRange n step) : m % step = 0 := by
  unfold stepRange at hm
  rw [List.mem_range'] at hm
  obtain ⟨i, _, he⟩ := hm
  rw [he, Nat.zero_add, Nat.mul_mod_right]

theorem nodup_stepRange (n step : Nat) (hstep : 0 < step) : (stepRange n step).Nodup :=
  List.nodup_range' 0 ((n + step - 1) / step) step hstep

theorem nodup_flatMap_pairs (ys xs : List Nat) (hys : ys.Nodup) (hxs : xs.Nodup) :
    (ys.flatMap (fun y => xs.map (fun x => (x, y)))).Nodup := by
  induction ys with
  | nil => simp
  | cons y rest ih =>
    rw [List.flatMap_cons]
    rw [List.nodup_cons] at hys
    apply List.Nodup.append
    · exact hxs.map (fun a b hab => congrArg Prod.fst hab)
    · exact ih hys.2
    · intro a ha hb
      rw [List.mem_map] at ha
      obtain ⟨x1, _, hx1⟩ := ha
      rw [List.mem_flatMap] at hb
      obtain ⟨y2, hy2, hb2⟩ := hb
      rw [List.mem_map] at hb2
      obtain ⟨x2, _, hx2⟩ := hb2
      rw [← hx1] at hx2
      have hyy : y2 = y := congrArg Prod.snd hx2
      rw [← hyy] at hys
      exact hys.1 hy2

/-- The list of block corners `(x, y)` visited by the two `pixellate` loops. -/
def cornerPairs (img : Image) (step : Nat) : List (Nat × Nat) :=
  (stepRange img.width step).flatMap
    (fun y => (stepRange img.height step).map (fun x => (x, y)))

theorem nodup_cornerPairs (img : Image) (step : Nat) (hstep : 0 < step) :
    (cornerPairs img step).Nodup :=
  nodup_flatMap_pairs (stepRange img.width step) (stepRange img.height step)
    (nodup_stepRange img.width step hstep) (nodup_stepRange img.height step hstep)

theorem cornerPairs_aligned (img : Image) (step : Nat) :
    ∀ p ∈ cornerPairs img step, p.1 % step = 0 ∧ p.2 % step = 0 := by
  intro p hp
  unfold cornerPairs at hp
  rw [List.mem_flatMap] at hp
  obtain ⟨y, hy, hp2⟩ := hp
  rw [List.mem_map] at hp2
  obtain ⟨x, hx, hxp⟩ := hp2
  rw [← hxp]
  exact ⟨stepRange_mod x img.height step hx, stepRange_mod y img.width step hy⟩

theorem corner_mem_cornerPairs (img : Image) (step r c : Nat) (hstep : 0 < step)
    (hr : r < img.height) (hc : c < img.width) :
    (cornerRow r step, cornerRow c step) ∈ cornerPairs img step := by
  unfold cornerPairs
  rw [List.mem_flatMap]
  refine ⟨cornerRow c step, cornerRow_mem_stepRange c img.width step hstep hc, ?_⟩
  rw [List.mem_map]
  exact ⟨cornerRow r step, cornerRow_mem_stepRange r img.height step hstep hr, rfl⟩

theorem foldl_flatMap_general {α β γ : Type} (l : List α) (g : α → List β) (F : γ → β → γ) :
    ∀ init : γ,
    (l.flatMap g).foldl F init = l.foldl (fun acc a => (g a).foldl F acc) init := by
  induction l with
  | nil => intro init; rfl
  | cons a rest ih =>
    intro init
    simp only [List.flatMap_cons, List.foldl_append, List.foldl_cons]
    exact ih ((g a).foldl F init)

theorem pixellate_eq_foldl_cornerPairs (img : Image) (step : Nat) :
    Editor.pixellate img step
      = (cornerPairs img step).foldl (fun acc p => Editor.pixelavg acc p.1 p.2 step) img := by
  unfold Editor.pixellate cornerPairs
  rw [foldl_flatMap_general]
  apply List.foldl_ext
  intro acc y _
  rw [List.foldl_map]

theorem foldl_pixelavg_spec (img : Image) (step : Nat) (hstep : 0 < step)
    (hw : 0 < img.width) (hlen : img.pixels.length = img.width * img.height) :
    ∀ (pairs : List (Nat × Nat)) (P : Image),
    P.width = img.width → P.height = img.height → P.pixels.length = img.pixels.length →
    pairs.Nodup →
    (∀ p ∈ pairs, p.1 % step = 0 ∧ p.2 % step = 0) →
    (∀ r c, r < img.height → c < img.width →
      (cornerRow r step, cornerRow c step) ∈ pairs → P.getPixel r c = img.getPixel r c) →
    ((pairs.foldl (fun acc p => Editor.pixelavg acc p.1 p.2 step) P).width = img.width ∧
     (pairs.foldl (fun acc p => Editor.pixelavg acc p.1 p.2 step) P).height = img.height ∧
     (pairs.foldl (fun acc p => Editor.pixelavg acc p.1 p.2 step) P).pixels.length
       = img.pixels.length ∧
     (∀ r c, r < img.height → c < img.width →
       (pairs.foldl (fun acc p => Editor.pixelavg acc p.1 p.2 step) P).getPixel r c
         = if (cornerRow r step, cornerRow c step) ∈ pairs
           then Editor.avgPixel img (cornerRow r step) (cornerRow c step) step
           else P.getPixel r c)) := by
  intro pairs
  induction pairs with
  | nil =>
    intro P hPW hPH hPL _ _ _
    refine ⟨hPW, hPH, hPL, ?_⟩
    intro r c _ _
    simp
  | cons p rest ih =>
    intro P hPW hPH hPL hnodup halign hagree
    rw [List.nodup_cons] at hnodup
    obtain ⟨hpnotin, hrestnodup⟩ := hnodup
    obtain ⟨hpal1, hpal2⟩ := halign p (List.mem_cons_self p rest)
    have hPw0 : 0 < P.width := by rw [hPW]; exact hw
    have hPlen : P.pixels.length = P.width * P.height := by rw [hPW, hPH, hPL, hlen]
    obtain ⟨e1, e2, e3⟩ := pixelavg_dims P p.1 p.2 step
    have e4 := pixelavg_getPixel P p.1 p.2 step hPw0 hPlen
    have havg : Editor.avgPixel P p.1 p.2 step = Editor.avgPixel img p.1 p.2 step := by
      apply avgPixel_congr P img p.1 p.2 step hPH hPW
      intro s h hs hh hsb hhb
      apply hagree (p.1 + s) (p.2 + h) hsb hhb
      have hcr : cornerRow (p.1 + s) step = p.1 := cornerRow_add p.1 s step hstep hpal1 hs
      have hcc : cornerRow (p.2 + h) step = p.2 := cornerRow_add p.2 h step hstep hpal2 hh
      rw [hcr, hcc]
      exact List.mem_cons_self p rest
    have hagree2 : ∀ r c, r < img.height → c < img.width →
        (cornerRow r step, cornerRow c step) ∈ rest →
        (Editor.pixelavg P p.1 p.2 step).getPixel r c = img.getPixel r c := by
      intro r c hr hc hmem
      rw [e4 r c (by rw [hPH]; exact hr) (by rw [hPW]; exact hc)]
      by_cases hblock : p.1 ≤ r ∧ r < p.1 + step ∧ p.2 ≤ c ∧ c < p.2 + step
      · exfalso
        have hcorner := (block_mem_iff p.1 p.2 r c step hstep hpal1 hpal2).mp hblock
        apply hpnotin
        have heq : (cornerRow r step, cornerRow c step) = p := by
          rw [hcorner.1, hcorner.2]
        rw [← heq]
        exact hmem
      · rw [if_neg hblock]
        exact hagree r c hr hc (List.mem_cons_of_mem p hmem)
    simp only [List.foldl_cons]
    obtain ⟨f1, f2, f3, f4⟩ := ih (Editor.pixelavg P p.1 p.2 step)
      (e1.trans hPW) (e2.trans hPH) (e3.trans hPL) hrestnodup
      (fun q hq => halign q (List.mem_cons_of_mem p hq)) hagree2
    refine ⟨f1, f2, f3, ?_⟩
    intro r c hr hc
    rw [f4 r c hr hc]
    by_cases hmem : (cornerRow r step, cornerRow c step) ∈ rest
    · rw [if_pos hmem, if_pos (List.mem_cons_of_mem p hmem)]
    · rw [if_neg hmem]
      by_cases hhead : (cornerRow r step, cornerRow c step) = p
      · rw [if_pos (by rw [List.mem_cons]; exact Or.inl hhead)]
        have hcorner : cornerRow r step = p.1 ∧ cornerRow c step = p.2 :=
          ⟨congrArg Prod.fst hhead, congrArg Prod.snd hhead⟩
        have hblock := (block_mem_iff p.1 p.2 r c step hstep hpal1 hpal2).mpr hcorner
        rw [e4 r c (by rw [hPH]; exact hr) (by rw [hPW]; exact hc), if_pos hblock, havg]
        rw [hcorner.1, hcorner.2]
      · rw [if_neg (by rw [List.mem_cons]; push_neg; exact ⟨hhead, hmem⟩)]
        rw [e4 r c (by rw [hPH]; exact hr) (by rw [hPW]; exact hc)]
        rw [if_neg ?_]
        intro hblock
        have hcorner := (block_mem_iff p.1 p.2 r c step hstep hpal1 hpal2).mp hblock
        apply hhead
        rw [hcorner.1, hcorner.2]

/-- C6 (amended): for every positive `step`, `pixellate(step)` partitions the
image into `step x step` blocks from `(0, 0)` and gives every in-bounds pixel
the color of its block: per channel, the sum over the block's in-bounds
pixels divided by `step**2` — by `step**2` even for partial edge blocks, not
by the in-bounds pixel count — rounded with Python's `round` (ties to even). -/
theorem pixellate_spec (img : Image) (step : Nat) (hstep : 0 < step)
    (hw : 0 < img.width) (hlen : img.pixels.length = img.width * img.height) :
    (Editor.pixellate img step).width = img.width ∧
    (Editor.pixellate img step).height = img.height ∧
    (Editor.pixellate img step).pixels.length = img.pixels.length ∧
    ∀ r c, r < img.height → c < img.width →
      (Editor.pixellate img step).getPixel r c
        = Editor.avgPixel img (cornerRow r step) (cornerRow c step) step := by
  rw [pixellate_eq_foldl_cornerPairs]
  obtain ⟨f1, f2, f3, f4⟩ := foldl_pixelavg_spec img step hstep hw hlen
    (cornerPairs img step) img rfl rfl rfl
    (nodup_cornerPairs img step hstep) (cornerPairs_aligned img step)
    (fun r c _ _ _ => rfl)
  refine ⟨f1, f2, f3, ?_⟩
  intro r c hr hc
  rw [f4 r c hr hc, if_pos (corner_mem_cornerPairs img step r c hstep hr hc)]

/-- Witness for C6 at a concrete 2x2 image with step 2. -/
theorem pixellate_spec_witness :
    (Editor.pixellate (Image.make [(1, 2, 3), (5, 6, 7), (0, 0, 0), (2, 0, 1)] 2) 2).getPixel 1 1
      = Editor.avgPixel (Image.make [(1, 2, 3), (5, 6, 7), (0, 0, 0), (2, 0, 1)] 2)
          (cornerRow 1 2) (cornerRow 1 2) 2 :=
  (pixellate_spec (Image.make [(1, 2, 3), (5, 6, 7), (0, 0, 0), (2, 0, 1)] 2) 2
    (by decide) (by decide) (by decide)).2.2.2 1 1 (by decide) (by decide)

/-- The number of in-bounds pixels of the block with corner `(x, y)`. -/
def blockCount (img : Image) (x y step : Nat) : Nat :=
  ((rowMajorPairs step step).filter
    (fun p => decide (x + p.1 < img.height ∧ y + p.2 < img.width))).length

/-- Following the claim's words: the integer-rounded mean of each channel
averaged over only the block's in-bounds member pixels (divide by the
in-bounds count, not by `step**2`) — for comparison with the source's
`Editor.avgPixel`. -/
def avgPixelClaim (img : Image) (x y step : Nat) : Pixel :=
  (pyRound (Editor.blockSum img x y step).1 (blockCount img x y step),
   pyRound (Editor.blockSum img x y step).2.1 (blockCount img x y step),
   pyRound (Editor.blockSum img x y step).2.2 (blockCount img x y step))

/-- C6 counterexample: a 1x1 image `[(3,3,3)]` pixellated with step 2 — the
block is partial (one in-bounds pixel), the claim's in-bounds mean is 3, but
the code divides the sum 3 by `step**2 = 4` and rounds to 1. -/
theorem pixellate_partial_block_counterexample :
    Editor.pixellate (Image.make [(3, 3, 3)] 1) 2 = Image.mk [(1, 1, 1)] 1 1 ∧
    avgPixelClaim (Image.make [(3, 3, 3)] 1) 0 0 2 = (3, 3, 3) ∧
    Editor.avgPixel (Image.make [(3, 3, 3)] 1) 0 0 2 = (1, 1, 1) ∧
    (Editor.pixellate (Image.make [(3, 3, 3)] 1) 2).getPixel 0 0
      ≠ (avgPixelClaim (Image.make [(3, 3, 3)] 1) 0 0 2 : Pixel) := by
  decide
